import Mathlib

/-!
Verification of the `spid` sentinel library (package `sentinel`, file
`sentinel.go`, plus the `spid` CLI in `main.go`) against its specification.

Shallow embedding conventions, chosen once and used throughout:

* Filesystem paths are lists of path components (`FPath := List String`);
  `filepath.Join dir name` becomes `p ++ [name]`.  Go's byte strings read
  from files are lists of naturals (`Bytes := List Nat`).
* `crypto/sha256` is modelled as an ideal (collision-free, i.e. injective)
  content hash `checksumFile : Bytes → Checksum`; a digest is never the
  empty list, mirroring the fact that a real hex digest is never the empty
  string.  The Go `checksum` type (a hex string) is modelled by the
  underlying digest value (`Checksum := List Nat`, `[]` standing for the
  zero value `""`).
* `golang.org/x/crypto/scrypt` is modelled as an ideal key-derivation
  function, injective in (password, salt); `nacl/secretbox` is modelled as
  an ideal authenticated cipher: `secretboxSeal` prepends an unforgeable
  authentication tag (injective in key, nonce and ciphertext) to the
  ciphertext, and `secretboxOpen` recomputes and checks that tag, exactly
  as the real construction does with its Poly1305 tag.  Confidentiality is
  not the subject of any claim; authentication and round-tripping are
  modelled exactly.
* `encoding/gob` is modelled by an explicit executable codec
  (`gobEncodeSentinel` / `gobDecodeSentinel`).  The one observable gob
  behaviour that matters is kept faithfully: a zero-valued struct field is
  omitted from the wire format, and gob treats a map of length 0 as
  zero-valued, so a `Sentinel` whose `KnownObjects` map is empty decodes
  with a nil map.  A Go map is therefore modelled as
  `GoMap := Option (List (FPath × Checksum))`, `none` being a nil map:
  reads from a nil map succeed (and find nothing), writes to a nil map
  panic, which the model surfaces as the abnormal outcome
  `GoErr.nilMapPanic`.
* Randomness (`rand.Reader`) and the clock (`time.Now()`) are inputs:
  `Save` takes the drawn nonce and salt, `Scan` takes the current time.
* The on-disk `SentinelFile` is produced and consumed through gob as well;
  writing it to disk and reading it back is the identity in the model, so
  `Save` returns the container and `Open` takes it.
-/

namespace Spid

/-- Byte sequences (Go `[]byte`); elements are naturals. -/
abbrev Bytes := List Nat

/-- A filesystem path, as its list of components. -/
abbrev FPath := List String

/-- Model of the Go `checksum` type (source: `type checksum string`, a hex
digest): the digest value, `[]` standing for the zero value `""`. -/
abbrev Checksum := List Nat

/-! ### An injective, executable packing of byte lists into one natural

`listToNat` realises the ideal primitives (hash, tag): it packs a list into
a single natural, injectively.  `natsOfList` length-prefixes a list so that
several lists can be concatenated and split back apart (`splitNats`). -/

/-- Injective packing of a list of naturals into one natural:
`listToNat (a :: r) = 2 ^ a * (2 * listToNat r + 1)`. -/
def listToNat : List Nat → Nat
  | [] => 0
  | a :: r => 2 ^ a * (2 * listToNat r + 1)

/-- Length-prefix a list so that it is self-delimiting in a concatenation. -/
def natsOfList (l : List Nat) : List Nat := l.length :: l

/-- Read back one length-prefixed list, returning it and the remainder. -/
def splitNats : List Nat → Option (List Nat × List Nat)
  | [] => none
  | n :: r => if n ≤ r.length then some (r.take n, r.drop n) else none

/-- Serialise a string as the length-prefixed list of its character codes. -/
def natsOfString (s : String) : List Nat := natsOfList (s.data.map Char.toNat)

/-- Read back one string serialised by `natsOfString`. -/
def splitString (b : List Nat) : Option (String × List Nat) :=
  (splitNats b).map (fun x => (String.mk (x.1.map Char.ofNat), x.2))

/-! ### DigestEngine: `checksumFile` (source lines 76–90)

The Go function opens the file, streams it through SHA-256 and returns the
hex digest.  File contents are supplied directly (the caller resolves the
path); SHA-256 is idealised as an injective function whose output is never
the zero digest. -/

/-- Model of `checksumFile`: ideal content hash of the file's bytes.
Injective (collision-freeness idealised), never the empty digest. -/
def checksumFile (content : Bytes) : Checksum := [listToNat content + 1]

/-! ### Data model (source lines 19–65) -/

/-- Source: `Event` struct — `Evtype`, `OrigChecksum`, `NewChecksum`, `File`. -/
structure Event where
  Evtype : String
  OrigChecksum : Checksum
  NewChecksum : Checksum
  File : FPath
deriving DecidableEq

/-- Source: `Scan` struct (a scan record) — `Timestamp`, `Events`.  Renamed
`ScanRecord` because `Scan` also names the scanning function. -/
structure ScanRecord where
  Timestamp : Nat
  Events : List Event
deriving DecidableEq

/-- A Go `map[string]checksum`: `none` is a nil map (reads find nothing,
writes panic), `some l` is an allocated map with entry list `l`. -/
abbrev GoMap := Option (List (FPath × Checksum))

/-- Source: `Sentinel` struct — `WatchFiles`, `KnownObjects`, `PriorScans`. -/
structure Sentinel where
  WatchFiles : List FPath
  KnownObjects : GoMap
  PriorScans : List ScanRecord
deriving DecidableEq

/-- Source: `Config` struct — `WatchFiles`. -/
structure Config where
  WatchFiles : List FPath
deriving DecidableEq

/-- Source: `SentinelFile` struct — `Data`, `Nonce`, `Salt` (the fixed-size
`[24]byte` arrays become byte lists; `Save` always stores 24 bytes). -/
structure SentinelFile where
  Data : Bytes
  Nonce : Bytes
  Salt : Bytes
deriving DecidableEq

/-- Source: `evCreate = "EV_CREATE"`. -/
def evCreate : String := "EV_CREATE"

/-- Source: `evModify = "EV_MODIFY"`. -/
def evModify : String := "EV_MODIFY"

/-- Source: scrypt work parameters (fixed process-wide constants). -/
def scryptN : Nat := 16384

/-- Source: scrypt block-size parameter. -/
def scryptR : Nat := 8

/-- Source: scrypt parallelism parameter. -/
def scryptP : Nat := 1

/-- Source: derived-key length in bytes. -/
def keyLen : Nat := 32

/-- The abnormal outcomes of the modelled operations: a failed stat/read
during a scan, a panic on assigning into a nil map, an authentication
failure in `Open`, and a gob decoding failure in `Open`. -/
inductive GoErr where
  | readErr
  | nilMapPanic
  | authErr
  | decodeErr
deriving DecidableEq

/-- Source: `New` (lines 68–73): fresh sentinel with the configured watch
files and an allocated empty `KnownObjects` map (`make(map[string]checksum)`). -/
def New (config : Config) : Sentinel :=
  { WatchFiles := config.WatchFiles, KnownObjects := some [], PriorScans := [] }

/-! ### Go map primitives -/

/-- Association-list lookup (first binding wins), modelling a map read. -/
def lookupA : List (FPath × Checksum) → FPath → Option Checksum
  | [], _ => none
  | (q, v) :: r, p => if q = p then some v else lookupA r p

/-- Association-list update: replace the binding of `p`, or append one. -/
def setA : List (FPath × Checksum) → FPath → Checksum → List (FPath × Checksum)
  | [], p, v => [(p, v)]
  | (q, w) :: r, p, v => if q = p then (q, v) :: r else (q, w) :: setA r p v

/-- Read `m[p]` (second return of the Go two-value read).  Reading a nil map
succeeds and finds nothing. -/
def mapGet (m : GoMap) (p : FPath) : Option Checksum :=
  match m with
  | none => none
  | some l => lookupA l p

/-- Write `m[p] = v`.  Writing to a nil map panics (`none` result). -/
def mapSet (m : GoMap) (p : FPath) (v : Checksum) : Option GoMap :=
  match m with
  | none => none
  | some l => some (some (setA l p v))

/-! ### CryptoBox: scrypt and secretbox (library calls in `Save`/`Open`)

`scrypt.Key(password, salt, N, r, p, 32)` is an ideal KDF: injective in
(password, salt).  `secretbox.Seal(out, msg, nonce, key)` appends to `out`
the authenticated box: an unforgeable tag followed by the ciphertext; the
tag is an injective function of (key, nonce, ciphertext), the ideal-MAC
reading of Poly1305.  `secretbox.Open(out, box, nonce, key)` recomputes the
tag over the received ciphertext and rejects any mismatch. -/

/-- Ideal scrypt: the derived 32-byte key is modelled as an injective
function of (password, salt). -/
def scryptKey (password : String) (salt : Bytes) : Bytes :=
  natsOfString password ++ natsOfList salt

/-- The cipher keystream value derived from a key (one additive pad). -/
def sbPad (key : Bytes) : Nat := key.sum + 1

/-- XSalsa20 encryption, abstracted to an invertible per-byte pad. -/
def sbEncrypt (key : Bytes) (msg : Bytes) : Bytes := msg.map (fun b => b + sbPad key)

/-- Inverse of `sbEncrypt`. -/
def sbDecrypt (key : Bytes) (ct : Bytes) : Bytes := ct.map (fun b => b - sbPad key)

/-- Ideal Poly1305 tag: injective in (key, nonce, ciphertext). -/
def sbTag (key nonce ct : Bytes) : Nat :=
  listToNat (natsOfList key ++ natsOfList nonce ++ natsOfList ct)

/-- Model of `secretbox.Seal out msg nonce key`: `out` followed by the tag
and the ciphertext. -/
def secretboxSeal (out : Bytes) (msg : Bytes) (nonce : Bytes) (key : Bytes) : Bytes :=
  out ++ (sbTag key nonce (sbEncrypt key msg) :: sbEncrypt key msg)

/-- Model of `secretbox.Open out box nonce key`: check the tag, then
decrypt; `none` is the `!success` outcome (no plaintext returned). -/
def secretboxOpen (out : Bytes) (box : Bytes) (nonce : Bytes) (key : Bytes) : Option Bytes :=
  match box with
  | [] => none
  | t :: ct => if t = sbTag key nonce ct then some (out ++ sbDecrypt key ct) else none

/-! ### StateCodec: the gob encoding of a `Sentinel` (used in `Save`/`Open`)

An executable codec with gob's one observable quirk kept: a zero-valued
field is omitted, and a map of length 0 is zero-valued, so an empty
`KnownObjects` map is absent from the wire and decodes as a nil map.
(Strings, lists and naturals round-trip exactly: omitting a zero-valued
string or slice and decoding it back to the zero value is the identity, so
those fields are serialised unconditionally.) -/

/-- Serialise a list of items, count-prefixed. -/
def encListWith (f : α → List Nat) (l : List α) : List Nat := l.length :: l.flatMap f

/-- Read back `n` items with the item decoder `g`. -/
def decItems (g : List Nat → Option (α × List Nat)) : Nat → List Nat → Option (List α × List Nat)
  | 0, b => some ([], b)
  | n + 1, b => (g b).bind fun x => (decItems g n x.2).map fun y => (x.1 :: y.1, y.2)

/-- Read back a count-prefixed list of items. -/
def decListWith (g : List Nat → Option (α × List Nat)) (b : List Nat) :
    Option (List α × List Nat) :=
  match b with
  | [] => none
  | n :: r => decItems g n r

/-- Serialise a path (list of components). -/
def encPath (p : FPath) : List Nat := encListWith natsOfString p

/-- Read back one path. -/
def decPath (b : List Nat) : Option (FPath × List Nat) := decListWith splitString b

/-- Serialise one event: type tag, both checksums, path. -/
def encEvent (e : Event) : List Nat :=
  natsOfString e.Evtype ++ natsOfList e.OrigChecksum ++ natsOfList e.NewChecksum ++ encPath e.File

/-- Read back one event. -/
def decEvent (b : List Nat) : Option (Event × List Nat) :=
  (splitString b).bind fun t =>
  (splitNats t.2).bind fun o =>
  (splitNats o.2).bind fun n =>
  (decPath n.2).map fun f =>
  ({ Evtype := t.1, OrigChecksum := o.1, NewChecksum := n.1, File := f.1 }, f.2)

/-- Serialise one scan record: timestamp, then its events. -/
def encScanRecord (s : ScanRecord) : List Nat :=
  s.Timestamp :: encListWith encEvent s.Events

/-- Read back one scan record. -/
def decScanRecord (b : List Nat) : Option (ScanRecord × List Nat) :=
  match b with
  | [] => none
  | t :: r => (decListWith decEvent r).map fun x => ({ Timestamp := t, Events := x.1 }, x.2)

/-- Serialise one map entry. -/
def encEntry (e : FPath × Checksum) : List Nat := encPath e.1 ++ natsOfList e.2

/-- Read back one map entry. -/
def decEntry (b : List Nat) : Option ((FPath × Checksum) × List Nat) :=
  (decPath b).bind fun p => (splitNats p.2).map fun v => ((p.1, v.1), v.2)

/-- Serialise the `KnownObjects` field.  gob omits a zero-valued (length 0)
map, so both a nil map and an allocated empty map are encoded as absent. -/
def encMap : GoMap → List Nat
  | none => [0]
  | some [] => [0]
  | some l => 1 :: encListWith encEntry l

/-- Read back the `KnownObjects` field.  An absent map decodes to a nil map
(the decode target's zero value is untouched). -/
def decMap (b : List Nat) : Option (GoMap × List Nat) :=
  match b with
  | 0 :: r => some (none, r)
  | 1 :: r => (decListWith decEntry r).map fun x => (some x.1, x.2)
  | _ => none

/-- Model of `gob.Encode` on a `Sentinel` (Save, lines 183–187). -/
def gobEncodeSentinel (s : Sentinel) : Bytes :=
  encListWith encPath s.WatchFiles ++ encMap s.KnownObjects ++
    encListWith encScanRecord s.PriorScans

/-- Model of `gob.Decode` into a fresh `Sentinel` (Open, lines 223–228). -/
def gobDecodeSentinel (b : Bytes) : Option Sentinel :=
  (decListWith decPath b).bind fun w =>
  (decMap w.2).bind fun m =>
  (decListWith decScanRecord m.2).bind fun p =>
  if p.2 = [] then
    some { WatchFiles := w.1, KnownObjects := m.1, PriorScans := p.1 }
  else none

/-- The gob-normal form of a map: an empty allocated map comes back nil. -/
def normMap : GoMap → GoMap
  | none => none
  | some [] => none
  | some l => some l

/-- The gob-normal form of a state: `decode (encode s)` returns exactly this. -/
def normSentinel (s : Sentinel) : Sentinel :=
  { s with KnownObjects := normMap s.KnownObjects }

/-! ### Save and Open (source lines 166–229)

`Save` draws a 24-byte nonce and salt, derives the key, gob-encodes the
sentinel, seals it with the nonce as the output prefix
(`secretbox.Seal(nonce[:], encoded, &nonce, &secret)`), and writes the
`SentinelFile{Data, Nonce, Salt}` container.  `Open` reads the container,
re-derives the key from the stored salt, and opens
`in.Data[len(in.Nonce):]` — dropping the first 24 bytes of `Data` — with
the stored `Nonce` field.  Randomness is an input; the disk is the
identity. -/

/-- Model of `(*Sentinel).Save` with the drawn nonce and salt as inputs;
returns the on-disk container. -/
def Save (s : Sentinel) (password : String) (nonce salt : Bytes) : SentinelFile :=
  let secret := scryptKey password salt
  let encoded := gobEncodeSentinel s
  let data := secretboxSeal nonce encoded nonce secret
  { Data := data, Nonce := nonce, Salt := salt }

/-- Model of `Open`: derive the key from the stored salt, strip the 24-byte
prefix of `Data` (`in.Data[len(in.Nonce):]`, `Nonce` being `[24]byte`),
authenticate-and-decrypt with the stored `Nonce`, then gob-decode.
`authErr` is the `"could not decrypt sentinel"` error. -/
def Open (c : SentinelFile) (password : String) : Except GoErr Sentinel :=
  let secret := scryptKey password c.Salt
  match secretboxOpen [] (c.Data.drop 24) c.Nonce secret with
  | none => .error .authErr
  | some pt =>
      match gobDecodeSentinel pt with
      | none => .error .decodeErr
      | some s => .ok s

/-! ### The filesystem model

A filesystem entry is a regular file with its byte content, or a directory
with a named-children list (real directories never repeat a name; that is
the well-formedness predicate `wfNode`).  `filepath.Walk` visits the root
and then every descendant; its deterministic (lexical) visiting order is
abstracted as the child-list order.  A scan's world is a set of top-level
watch paths, each resolving to an entry tree (`FS`); a watch path missing
from it is a path whose `os.Stat` fails. -/

inductive FsNode where
  | file (content : Bytes)
  | dir (children : List (String × FsNode))

/-- The watched world: which watch paths resolve, and to what tree. -/
abbrev FS := List (FPath × FsNode)

/-- `os.Stat` of a watch path: look it up in the world. -/
def statFS : FS → FPath → Option FsNode
  | [], _ => none
  | (q, n) :: r, p => if q = p then some n else statFS r p

/-- The `(path, entry)` pairs `filepath.Walk` hands to the walk function for
everything strictly under a directory with children `l` at path `p`, in
visiting order: each child, then (for a directory child) everything under
it, then the later siblings.  (The root itself is skipped by `process`'s
`path == filename` test.) -/
def walkChildren : List (String × FsNode) → FPath → List (FPath × FsNode)
  | [], _ => []
  | (a, .file c) :: rest, p => (p ++ [a], .file c) :: walkChildren rest p
  | (a, .dir ch) :: rest, p =>
      (p ++ [a], .dir ch) :: (walkChildren ch (p ++ [a]) ++ walkChildren rest p)

/-- The sequence of `(path, content)` file reads performed by
`process` (source lines 94–144) on the children list `l` of a directory at
path `p`: `filepath.Walk` hands every entry under the directory to the walk
function, which calls `process` recursively on it — so a subdirectory entry
is processed as a whole (its own walk) and then each of its descendants is
handed to `process` again, visiting its files a second time.
`procVisits_walkChildren` below proves these equations equal to the literal
walk-then-recurse composition. -/
def procVisitsL : List (String × FsNode) → FPath → List (FPath × Bytes)
  | [], _ => []
  | (a, .file c) :: rest, p => (p ++ [a], c) :: procVisitsL rest p
  | (a, .dir ch) :: rest, p =>
      (procVisitsL ch (p ++ [a]) ++ procVisitsL ch (p ++ [a])) ++ procVisitsL rest p

/-- The file reads performed by `process` on the entry `n` at path `p`: a
regular file is read once; a directory is walked. -/
def procVisits (n : FsNode) (p : FPath) : List (FPath × Bytes) :=
  match n with
  | .file c => [(p, c)]
  | .dir ch => procVisitsL ch p

/-- `procVisitsL` is the walk-then-recurse composition of the source: the
concatenation, over every walked entry, of that entry's own visits. -/
theorem procVisits_walkChildren (l : List (String × FsNode)) (p : FPath) :
    procVisitsL l p = (walkChildren l p).flatMap (fun e => procVisits e.2 e.1) := by
  induction l, p using procVisitsL.induct with
  | case1 p => simp [procVisitsL, walkChildren]
  | case2 a c rest p ih => simp [procVisitsL, walkChildren, procVisits, ih]
  | case3 a ch rest p ih1 ih2 =>
      simp [procVisitsL, walkChildren, procVisits, ih1, ih2, List.flatMap_append]

/-- The per-file body of `process` (source lines 122–143): hash the
content, look the path up in `KnownObjects`, emit the event the diff calls
for, and unconditionally write the new digest back (a write that panics on
a nil map). -/
def processFile (m : GoMap) (q : FPath) (c : Bytes) : Except GoErr (List Event × GoMap) :=
  let cs := checksumFile c
  let evs : List Event :=
    match mapGet m q with
    | none => [{ Evtype := evCreate, OrigChecksum := [], NewChecksum := cs, File := q }]
    | some k =>
        if k = cs then []
        else [{ Evtype := evModify, OrigChecksum := k, NewChecksum := cs, File := q }]
  match mapSet m q cs with
  | none => .error .nilMapPanic
  | some m' => .ok (evs, m')

/-- Run the per-file body over a visit sequence, threading the map and
collecting events in order; an abnormal outcome stops the run and returns
the map as mutated so far (the Go map is updated in place). -/
def runVisits (m : GoMap) : List (FPath × Bytes) → Except GoErr (List Event) × GoMap
  | [] => (.ok [], m)
  | (q, c) :: rest =>
      match processFile m q c with
      | .error e => (.error e, m)
      | .ok (evs, m') =>
          match runVisits m' rest with
          | (.error e, m'') => (.error e, m'')
          | (.ok evs', m'') => (.ok (evs ++ evs'), m'')

/-- Model of `process` on one watch entry: `os.Stat` the path (an entry
missing from the world is the `ReadError`), then perform its file visits. -/
def processEntry (fs : FS) (m : GoMap) (w : FPath) : Except GoErr (List Event) × GoMap :=
  match statFS fs w with
  | none => (.error .readErr, m)
  | some n => runVisits m (procVisits n w)

/-- The per-watch-file loop of `Scan` (source lines 148–156): process each
watch entry in order, short-circuiting on the first abnormal outcome. -/
def scanEntries (fs : FS) (m : GoMap) : List FPath → Except GoErr (List Event) × GoMap
  | [] => (.ok [], m)
  | w :: rest =>
      match processEntry fs m w with
      | (.error e, m') => (.error e, m')
      | (.ok evs, m') =>
          match scanEntries fs m' rest with
          | (.error e, m'') => (.error e, m'')
          | (.ok evs', m'') => (.ok (evs ++ evs'), m'')

/-- Model of `(*Sentinel).Scan` (source lines 148–162): run the watch loop;
on success append the `ScanRecord{Timestamp: now, Events: evs}` and return
the events.  On an abnormal outcome the error is returned, the map keeps
the updates made before the failure (it is mutated in place) and no record
is appended. -/
def Scan (s : Sentinel) (fs : FS) (now : Nat) : Except GoErr (List Event) × Sentinel :=
  match scanEntries fs s.KnownObjects s.WatchFiles with
  | (.error e, m') => (.error e, { s with KnownObjects := m' })
  | (.ok evs, m') =>
      (.ok evs,
       { WatchFiles := s.WatchFiles, KnownObjects := m',
         PriorScans := s.PriorScans ++ [{ Timestamp := now, Events := evs }] })

/-- A sequence of scan invocations (one per program run), each against the
then-current world and clock, stopping at the first failure. -/
def runScans (s : Sentinel) : List (FS × Nat) → Except GoErr Unit × Sentinel
  | [] => (.ok (), s)
  | (fs, t) :: rest =>
      match Scan s fs t with
      | (.error e, s') => (.error e, s')
      | (.ok _, s') => runScans s' rest

/-- All file visits a scan over watch list `ws` in world `fs` performs (for
entries that resolve), in order. -/
def scanVisits (fs : FS) (ws : List FPath) : List (FPath × Bytes) :=
  ws.flatMap fun w =>
    match statFS fs w with
    | none => []
    | some n => procVisits n w

/-! ### Spec-side views of a tree: its regular files, well-formedness -/

/-- The regular files under a children list at path `p`, each once, in walk
order (used to state claims about directory scans). -/
def fileEntriesL : List (String × FsNode) → FPath → List (FPath × Bytes)
  | [], _ => []
  | (a, .file c) :: rest, p => (p ++ [a], c) :: fileEntriesL rest p
  | (a, .dir ch) :: rest, p => fileEntriesL ch (p ++ [a]) ++ fileEntriesL rest p

/-- The regular files in the tree `n` rooted at path `p`, each once. -/
def fileEntries (n : FsNode) (p : FPath) : List (FPath × Bytes) :=
  match n with
  | .file c => [(p, c)]
  | .dir ch => fileEntriesL ch p

/-- Well-formedness of a children list: sibling names are distinct at every
level (true of every real directory). -/
def wfList : List (String × FsNode) → Bool
  | [] => true
  | (a, .file _) :: rest => !((rest.map Prod.fst).contains a) && wfList rest
  | (a, .dir ch) :: rest =>
      wfList ch && !((rest.map Prod.fst).contains a) && wfList rest

/-- Well-formedness of a tree. -/
def wfNode : FsNode → Bool
  | .file _ => true
  | .dir ch => wfList ch

/-- A visit sequence is consistent when a path never carries two different
contents — true of every sequence read from one filesystem snapshot. -/
def consistentB (vs : List (FPath × Bytes)) : Bool :=
  vs.all fun e => vs.all fun e' => !(e.1 == e'.1) || (e.2 == e'.2)

/-- The first-occurrence sublist of a visit sequence: later visits of an
already-seen path dropped. -/
def dedupKeys : List (FPath × Bytes) → List (FPath × Bytes)
  | [] => []
  | (q, c) :: rest => (q, c) :: dedupKeys (rest.filter fun e => !(e.1 == q))
termination_by l => l.length
decreasing_by
  simp only [List.length_cons]
  exact Nat.lt_succ_of_le (List.length_filter_le _ _)

/-! ## Lemmas about the codec -/

theorem splitNats_natsOfList (l rest : List Nat) :
    splitNats (natsOfList l ++ rest) = some (l, rest) := by
  simp [splitNats, natsOfList, List.take_left, List.drop_left]

theorem splitString_natsOfString (s : String) (rest : List Nat) :
    splitString (natsOfString s ++ rest) = some (s, rest) := by
  simp only [splitString, natsOfString, splitNats_natsOfList, Option.map_some']
  congr 1
  simp only [List.map_map]
  have : (fun c => Char.ofNat (Char.toNat c)) = (id : Char → Char) := by
    funext c; simp [Char.ofNat_toNat]
  rw [show (Char.ofNat ∘ Char.toNat) = (id : Char → Char) from funext fun c => by
    simp [Function.comp, Char.ofNat_toNat]]
  cases s with
  | mk data => simp

theorem decItems_flatMap {α : Type} {f : α → List Nat}
    {g : List Nat → Option (α × List Nat)}
    (hfg : ∀ a rest, g (f a ++ rest) = some (a, rest)) (l : List α) (rest : List Nat) :
    decItems g l.length (l.flatMap f ++ rest) = some (l, rest) := by
  induction l with
  | nil => simp [decItems]
  | cons a t ih =>
      simp only [List.length_cons, List.flatMap_cons, List.append_assoc, decItems, hfg]
      simp [ih]

theorem decListWith_encListWith {α : Type} {f : α → List Nat}
    {g : List Nat → Option (α × List Nat)}
    (hfg : ∀ a rest, g (f a ++ rest) = some (a, rest)) (l : List α) (rest : List Nat) :
    decListWith g (encListWith f l ++ rest) = some (l, rest) := by
  simp [encListWith, decListWith, decItems_flatMap hfg]

theorem decPath_encPath (p : FPath) (rest : List Nat) :
    decPath (encPath p ++ rest) = some (p, rest) :=
  decListWith_encListWith splitString_natsOfString p rest

theorem decEvent_encEvent (e : Event) (rest : List Nat) :
    decEvent (encEvent e ++ rest) = some (e, rest) := by
  simp [decEvent, encEvent, splitString_natsOfString, splitNats_natsOfList, decPath_encPath]

theorem decEntry_encEntry (e : FPath × Checksum) (rest : List Nat) :
    decEntry (encEntry e ++ rest) = some (e, rest) := by
  simp [decEntry, encEntry, decPath_encPath, splitNats_natsOfList]

theorem decScanRecord_encScanRecord (r : ScanRecord) (rest : List Nat) :
    decScanRecord (encScanRecord r ++ rest) = some (r, rest) := by
  simp [decScanRecord, encScanRecord, decListWith_encListWith decEvent_encEvent]

theorem decMap_encMap (m : GoMap) (rest : List Nat) :
    decMap (encMap m ++ rest) = some (normMap m, rest) := by
  match m with
  | none => simp [encMap, decMap, normMap]
  | some [] => simp [encMap, decMap, normMap]
  | some (e :: l) =>
      simp [encMap, decMap, normMap, decListWith_encListWith decEntry_encEntry]

/-- gob round-trip: decoding the encoding of any state yields exactly its
gob-normal form (the state with an empty map collapsed to a nil map). -/
theorem gobDecode_gobEncode (s : Sentinel) :
    gobDecodeSentinel (gobEncodeSentinel s) = some (normSentinel s) := by
  have h1 := decListWith_encListWith decPath_encPath s.WatchFiles
    (encMap s.KnownObjects ++ encListWith encScanRecord s.PriorScans)
  have h2 := decMap_encMap s.KnownObjects (encListWith encScanRecord s.PriorScans)
  have h3 := decListWith_encListWith decScanRecord_encScanRecord s.PriorScans []
  rw [List.append_nil] at h3
  simp only [gobEncodeSentinel, List.append_assoc]
  simp [gobDecodeSentinel, h1, h2, h3, normSentinel]

/-! ## Injectivity of the ideal primitives -/

theorem pow2_odd_inj : ∀ a b x y : Nat, 2 ^ a * (2 * x + 1) = 2 ^ b * (2 * y + 1) →
    a = b ∧ x = y := by
  intro a
  induction a with
  | zero =>
      intro b x y h
      cases b with
      | zero =>
          simp only [pow_zero, one_mul] at h
          exact ⟨rfl, by omega⟩
      | succ b' =>
          exfalso
          simp only [pow_zero, one_mul, pow_succ] at h
          have h2 : 2 * x + 1 = 2 * (2 ^ b' * (2 * y + 1)) := by rw [h]; ring
          omega
  | succ a' ih =>
      intro b x y h
      cases b with
      | zero =>
          exfalso
          simp only [pow_zero, one_mul, pow_succ] at h
          have h2 : 2 * y + 1 = 2 * (2 ^ a' * (2 * x + 1)) := by rw [← h]; ring
          omega
      | succ b' =>
          rw [pow_succ, pow_succ] at h
          have h' : 2 ^ a' * (2 * x + 1) = 2 ^ b' * (2 * y + 1) := by
            have hmul : 2 * (2 ^ a' * (2 * x + 1)) = 2 * (2 ^ b' * (2 * y + 1)) := by
              calc 2 * (2 ^ a' * (2 * x + 1)) = 2 ^ a' * 2 * (2 * x + 1) := by ring
                _ = 2 ^ b' * 2 * (2 * y + 1) := h
                _ = 2 * (2 ^ b' * (2 * y + 1)) := by ring
            exact Nat.eq_of_mul_eq_mul_left (by omega) hmul
          rcases ih b' x y h' with ⟨h1, h2⟩
          exact ⟨by omega, h2⟩

theorem listToNat_inj : ∀ l l' : List Nat, listToNat l = listToNat l' → l = l' := by
  intro l
  induction l with
  | nil =>
      intro l' h
      cases l' with
      | nil => rfl
      | cons a r =>
          simp only [listToNat] at h
          have : 0 < 2 ^ a * (2 * listToNat r + 1) :=
            Nat.mul_pos (Nat.pos_pow_of_pos _ (by omega)) (by omega)
          omega
  | cons a r ih =>
      intro l' h
      cases l' with
      | nil =>
          simp only [listToNat] at h
          have : 0 < 2 ^ a * (2 * listToNat r + 1) :=
            Nat.mul_pos (Nat.pos_pow_of_pos _ (by omega)) (by omega)
          omega
      | cons a' r' =>
          simp only [listToNat] at h
          rcases pow2_odd_inj a a' (listToNat r) (listToNat r') h with ⟨h1, h2⟩
          rw [h1, ih r' h2]

theorem checksumFile_inj {c c' : Bytes} (h : checksumFile c = checksumFile c') : c = c' := by
  simp only [checksumFile, List.cons.injEq, and_true] at h
  exact listToNat_inj _ _ (by omega)

/-- A digest is never the zero (empty) checksum. -/
theorem checksumFile_ne_nil (c : Bytes) : checksumFile c ≠ [] := by
  simp [checksumFile]

theorem sbTag_inj {k n c k' n' c' : Bytes} (h : sbTag k n c = sbTag k' n' c') :
    k = k' ∧ n = n' ∧ c = c' := by
  have he := listToNat_inj _ _ h
  have h1 : splitNats ((natsOfList k ++ natsOfList n ++ natsOfList c)) =
      splitNats ((natsOfList k' ++ natsOfList n' ++ natsOfList c')) := by rw [he]
  rw [List.append_assoc, List.append_assoc, splitNats_natsOfList, splitNats_natsOfList] at h1
  simp only [Option.some.injEq, Prod.mk.injEq] at h1
  rcases h1 with ⟨hk, hrest⟩
  have h2 : splitNats (natsOfList n ++ natsOfList c) =
      splitNats (natsOfList n' ++ natsOfList c') := by rw [hrest]
  rw [splitNats_natsOfList, splitNats_natsOfList] at h2
  simp only [Option.some.injEq, Prod.mk.injEq] at h2
  rcases h2 with ⟨hn, hc⟩
  have h3 : splitNats (natsOfList c ++ []) = splitNats (natsOfList c' ++ []) := by rw [hc]
  rw [splitNats_natsOfList, splitNats_natsOfList] at h3
  simp only [Option.some.injEq, Prod.mk.injEq] at h3
  exact ⟨hk, hn, h3.1⟩

theorem scryptKey_inj {pw pw' : String} {salt salt' : Bytes}
    (h : scryptKey pw salt = scryptKey pw' salt') : pw = pw' ∧ salt = salt' := by
  have h1 : splitString (natsOfString pw ++ natsOfList salt) =
      splitString (natsOfString pw' ++ natsOfList salt') := by
    simp only [scryptKey] at h; rw [h]
  rw [splitString_natsOfString, splitString_natsOfString] at h1
  simp only [Option.some.injEq, Prod.mk.injEq] at h1
  rcases h1 with ⟨hpw, hsalt⟩
  have h2 : splitNats (natsOfList salt ++ []) = splitNats (natsOfList salt' ++ []) := by
    rw [hsalt]
  rw [splitNats_natsOfList, splitNats_natsOfList] at h2
  simp only [Option.some.injEq, Prod.mk.injEq] at h2
  exact ⟨hpw, h2.1⟩

theorem sbDecrypt_sbEncrypt (key msg : Bytes) : sbDecrypt key (sbEncrypt key msg) = msg := by
  simp only [sbDecrypt, sbEncrypt, List.map_map]
  have : ((fun b => b - sbPad key) ∘ fun b => b + sbPad key) = (id : Nat → Nat) := by
    funext b; simp
  rw [this, List.map_id]

/-! ## Structural equality of states

The spec's structural equality: the same watch-set sequence, the same
known-object entries (order-independent, i.e. as a lookup function — in
particular a nil map and an allocated empty map hold the same entries), and
the same scan-record sequence in order. -/

/-- Structural equality of two states in the sense of the spec. -/
def sentinelEquiv (a b : Sentinel) : Prop :=
  a.WatchFiles = b.WatchFiles ∧
    (∀ p, mapGet a.KnownObjects p = mapGet b.KnownObjects p) ∧
    a.PriorScans = b.PriorScans

theorem mapGet_normMap (m : GoMap) (p : FPath) : mapGet (normMap m) p = mapGet m p := by
  match m with
  | none => rfl
  | some [] => rfl
  | some (e :: l) => rfl

theorem normSentinel_equiv (s : Sentinel) : sentinelEquiv (normSentinel s) s :=
  ⟨rfl, fun p => mapGet_normMap s.KnownObjects p, rfl⟩

/-! ## List helpers for byte-level tampering -/

theorem drop_of_length_append (xs ys : Bytes) (h : xs.length = 24) :
    (xs ++ ys).drop 24 = ys := by
  rw [← h, List.drop_left]

theorem getD_append_right (l1 l2 : List Nat) (i : Nat) (h : l1.length ≤ i) :
    (l1 ++ l2).getD i 0 = l2.getD (i - l1.length) 0 := by
  rw [List.getD_eq_getElem?_getD, List.getElem?_append_right h, ← List.getD_eq_getElem?_getD]

theorem set_ne_of_getD_ne (l : List Nat) (i b : Nat) (h : i < l.length)
    (hb : b ≠ l.getD i 0) : l.set i b ≠ l := by
  intro he
  apply hb
  have h2 : (l.set i b).getD i 0 = l.getD i 0 := by rw [he]
  rw [List.getD_eq_getElem?_getD, List.getElem?_set_self] at h2
  · simpa [List.getD_eq_getElem?_getD] using h2
  · simpa using h

/-! ## Claims C3, C4, C2 -/

/-- C3: for every SentinelState `s`, every path and every passphrase `k`,
saving `s` with passphrase `k` and then loading the written container with
the same passphrase `k` yields a state equal to `s` — the seal/open round
trip recovers the plaintext exactly.  (`Open` returns exactly the
gob-normal form of `s`, which is structurally equal to `s`: same watch set,
same known-object entries, same scan records.  The 24-byte nonce is the one
`Save` draws from the random source.) -/
theorem save_open_roundtrip (s : Sentinel) (pw : String) (nonce salt : Bytes)
    (hn : nonce.length = 24) :
    Open (Save s pw nonce salt) pw = .ok (normSentinel s) ∧
      sentinelEquiv (normSentinel s) s := by
  refine ⟨?_, normSentinel_equiv s⟩
  simp only [Open, Save, secretboxSeal, drop_of_length_append _ _ hn]
  simp [secretboxOpen, sbDecrypt_sbEncrypt, gobDecode_gobEncode]

/-- Witness for `save_open_roundtrip` at a concrete state, passphrase,
nonce and salt. -/
theorem save_open_roundtrip_witness :
    (List.replicate 24 0).length = 24 ∧
      (Open (Save (New { WatchFiles := [["f"]] }) "pw" (List.replicate 24 0) []) "pw" =
          .ok (normSentinel (New { WatchFiles := [["f"]] })) ∧
        sentinelEquiv (normSentinel (New { WatchFiles := [["f"]] }))
          (New { WatchFiles := [["f"]] })) :=
  ⟨by decide, save_open_roundtrip (New { WatchFiles := [["f"]] }) "pw" (List.replicate 24 0) []
    (by decide)⟩

/-- C4: decoding the encoding of any SentinelState yields a state
structurally equal to it — the same WatchSet sequence, the same
KnownObjectIndex entries (order-independent: as a lookup function), and the
same ScanRecord sequence in order, every event's type tag and both checksum
fields (empty ones included) preserved, the decoded state being exactly the
gob-normal form of the input.  Proved for every state, reachable or not. -/
theorem encode_decode_roundtrip (s : Sentinel) :
    gobDecodeSentinel (gobEncodeSentinel s) = some (normSentinel s) ∧
      sentinelEquiv (normSentinel s) s :=
  ⟨gobDecode_gobEncode s, normSentinel_equiv s⟩

/-- C2 (amended): opening with a wrong passphrase fails with the
authentication error, and so does flipping any single byte of the sealed
container other than the first 24 bytes of `Data` — any byte of `Data`
at index ≥ 24, any byte of the `Nonce` field, any byte of the `Salt`
field — always with the one same error and no plaintext.  (The first 24
bytes of `Data` are the nonce copy `Save` passes as `secretbox.Seal`'s
output prefix; `Open` slices them off unexamined, so flips there are not
detected — see the counterexample.) -/
theorem open_tamper_auth_error (s : Sentinel) (pw pw' : String) (nonce salt : Bytes)
    (hn : nonce.length = 24) :
    (pw' ≠ pw → Open (Save s pw nonce salt) pw' = .error .authErr) ∧
    (∀ i b, 24 ≤ i → i < (Save s pw nonce salt).Data.length →
      b ≠ (Save s pw nonce salt).Data.getD i 0 →
      Open { Save s pw nonce salt with Data := (Save s pw nonce salt).Data.set i b } pw =
        .error .authErr) ∧
    (∀ i b, i < nonce.length → b ≠ nonce.getD i 0 →
      Open { Save s pw nonce salt with Nonce := nonce.set i b } pw = .error .authErr) ∧
    (∀ i b, i < salt.length → b ≠ salt.getD i 0 →
      Open { Save s pw nonce salt with Salt := salt.set i b } pw = .error .authErr) := by
  refine ⟨?_, ?_, ?_, ?_⟩
  · intro hpw
    simp only [Open, Save, secretboxSeal, drop_of_length_append _ _ hn, secretboxOpen]
    rw [if_neg]
    intro he
    rcases sbTag_inj he.symm with ⟨hk, -, -⟩
    exact hpw (scryptKey_inj hk).1
  · intro i b hi hlen hb
    simp only [Save, secretboxSeal] at hlen hb ⊢
    rw [List.set_append_right i b (hn ▸ hi)] at *
    simp only [Open, drop_of_length_append _ _ hn, secretboxOpen, hn]
    rcases hj : i - 24 with _ | j
    · simp only [hj, List.set]
      rw [if_neg]
      rw [getD_append_right _ _ i (hn ▸ hi), hn, hj] at hb
      simpa using hb
    · simp only [hj, List.set]
      rw [if_neg]
      intro he
      rcases sbTag_inj he with ⟨-, -, hc⟩
      rw [getD_append_right _ _ i (hn ▸ hi), hn, hj] at hb
      have hjlen : j < (sbEncrypt (scryptKey pw salt) (gobEncodeSentinel s)).length := by
        rw [List.length_append, hn, List.length_cons] at hlen
        omega
      exact set_ne_of_getD_ne _ j b hjlen (by simpa using hb) hc.symm
  · intro i b hi hb
    simp only [Open, Save, secretboxSeal, drop_of_length_append _ _ hn, secretboxOpen]
    rw [if_neg]
    intro he
    rcases sbTag_inj he.symm with ⟨-, hnn, -⟩
    exact set_ne_of_getD_ne nonce i b hi hb hnn
  · intro i b hi hb
    simp only [Open, Save, secretboxSeal, drop_of_length_append _ _ hn, secretboxOpen]
    rw [if_neg]
    intro he
    rcases sbTag_inj he.symm with ⟨hk, -, -⟩
    exact set_ne_of_getD_ne salt i b hi hb (scryptKey_inj hk).2

/-- Witness for `open_tamper_auth_error`: a wrong passphrase and a flip of
the first ciphertext byte (index 25 of `Data`) are both rejected. -/
theorem open_tamper_auth_error_witness :
    ((List.replicate 24 0).length = 24 ∧ "px" ≠ "pw") ∧
      Open (Save (New { WatchFiles := [["f"]] }) "pw" (List.replicate 24 0) []) "px" =
        .error .authErr :=
  ⟨⟨by decide, by decide⟩,
    (open_tamper_auth_error (New { WatchFiles := [["f"]] }) "pw" "px" (List.replicate 24 0) []
      (by decide)).1 (by decide)⟩

set_option maxRecDepth 8000 in
/-- C2 counterexample: flipping a single byte of a sealed container does
not always make `Open` fail.  Byte 0 of `Data` (part of the nonce copy that
`Open` slices off unexamined) is 0 in this container; changing it to 1
leaves `Open` succeeding and returning the full plaintext state. -/
theorem open_prefix_flip_not_rejected :
    (Save (New { WatchFiles := [["f"]] }) "" (List.replicate 24 0) []).Data.getD 0 0 = 0 ∧
      Open { Save (New { WatchFiles := [["f"]] }) "" (List.replicate 24 0) [] with
          Data := (Save (New { WatchFiles := [["f"]] }) ""
            (List.replicate 24 0) []).Data.set 0 1 } "" =
        .ok (normSentinel (New { WatchFiles := [["f"]] })) := by
  constructor
  · rfl
  · rfl

/-! ## Lemmas about the map primitives -/

theorem lookupA_setA_self (l : List (FPath × Checksum)) (p : FPath) (v : Checksum) :
    lookupA (setA l p v) p = some v := by
  induction l with
  | nil => simp [setA, lookupA]
  | cons e r ih =>
      by_cases h : e.1 = p
      · simp [setA, lookupA, h]
      · simp [setA, lookupA, h, ih]

theorem lookupA_setA_ne (l : List (FPath × Checksum)) (p q : FPath) (v : Checksum)
    (h : q ≠ p) : lookupA (setA l p v) q = lookupA l q := by
  induction l with
  | nil =>
      simp only [setA, lookupA]
      rw [if_neg (fun he => h he.symm)]
  | cons e r ih =>
      rcases e with ⟨a, w⟩
      simp only [setA]
      by_cases he : a = p
      · subst he
        simp only [if_pos rfl, lookupA]
        rw [if_neg (fun he2 => h he2.symm), if_neg (fun he2 => h he2.symm)]
      · rw [if_neg he]
        simp only [lookupA]
        by_cases heq : a = q
        · rw [if_pos heq, if_pos heq]
        · rw [if_neg heq, if_neg heq, ih]

theorem setA_of_lookupA (l : List (FPath × Checksum)) (p : FPath) (v : Checksum)
    (h : lookupA l p = some v) : setA l p v = l := by
  induction l with
  | nil => simp [lookupA] at h
  | cons e r ih =>
      rcases e with ⟨a, w⟩
      simp only [lookupA] at h
      simp only [setA]
      by_cases he : a = p
      · rw [if_pos he] at h
        rw [if_pos he]
        simp only [Option.some.injEq] at h
        rw [h]
      · rw [if_neg he] at h
        rw [if_neg he, ih h]

/-! ## Lemmas about `runVisits` -/

/-- The cumulative effect of a visit sequence on an allocated map's entry
list: every visited path is set to its content's digest, in order. -/
def visitFold (l : List (FPath × Checksum)) (vs : List (FPath × Bytes)) :
    List (FPath × Checksum) :=
  vs.foldl (fun acc e => setA acc e.1 (checksumFile e.2)) l

theorem visitFold_append (l : List (FPath × Checksum)) (vs1 vs2 : List (FPath × Bytes)) :
    visitFold l (vs1 ++ vs2) = visitFold (visitFold l vs1) vs2 := by
  simp [visitFold, List.foldl_append]

/-- The events the per-file body emits for one visit against an allocated
map with entry list `l`. -/
def classifyVisit (l : List (FPath × Checksum)) (q : FPath) (c : Bytes) : List Event :=
  match lookupA l q with
  | none =>
      [{ Evtype := evCreate, OrigChecksum := [], NewChecksum := checksumFile c, File := q }]
  | some k =>
      if k = checksumFile c then []
      else
        [{ Evtype := evModify, OrigChecksum := k, NewChecksum := checksumFile c, File := q }]

theorem processFile_some (l : List (FPath × Checksum)) (q : FPath) (c : Bytes) :
    processFile (some l) q c =
      .ok (classifyVisit l q c, some (setA l q (checksumFile c))) := by
  cases hlk : lookupA l q with
  | none => simp [processFile, classifyVisit, mapGet, mapSet, hlk]
  | some k => simp [processFile, classifyVisit, mapGet, mapSet, hlk]

theorem classifyVisit_file (l : List (FPath × Checksum)) (q : FPath) (c : Bytes)
    (e : Event) (he : e ∈ classifyVisit l q c) : e.File = q := by
  rcases hlk : lookupA l q with _ | k
  · simp only [classifyVisit, hlk, List.mem_singleton] at he
    rw [he]
  · by_cases hk : k = checksumFile c
    · simp only [classifyVisit, hlk, if_pos hk] at he
      simp at he
    · simp only [classifyVisit, hlk, if_neg hk, List.mem_singleton] at he
      rw [he]

/-- On an allocated map a visit run never fails: it returns events and the
folded map. -/
theorem runVisits_some (l : List (FPath × Checksum)) (vs : List (FPath × Bytes)) :
    ∃ evs, runVisits (some l) vs = (.ok evs, some (visitFold l vs)) := by
  induction vs generalizing l with
  | nil => exact ⟨[], rfl⟩
  | cons e rest ih =>
      rcases e with ⟨q, c⟩
      rcases ih (setA l q (checksumFile c)) with ⟨evs, hevs⟩
      refine ⟨classifyVisit l q c ++ evs, ?_⟩
      simp only [runVisits, processFile_some, hevs, visitFold, List.foldl_cons]

/-- A visit run does not change the stored digest of a path it never
visits. -/
theorem visitFold_not_visited (l : List (FPath × Checksum)) (vs : List (FPath × Bytes))
    (p : FPath) (h : ∀ e ∈ vs, e.1 ≠ p) :
    lookupA (visitFold l vs) p = lookupA l p := by
  induction vs generalizing l with
  | nil => rfl
  | cons e rest ih =>
      simp only [visitFold, List.foldl_cons]
      rw [show List.foldl (fun acc e => setA acc e.1 (checksumFile e.2))
          (setA l e.1 (checksumFile e.2)) rest =
          visitFold (setA l e.1 (checksumFile e.2)) rest from rfl]
      rw [ih _ (fun x hx => h x (List.mem_cons_of_mem e hx))]
      exact lookupA_setA_ne l e.1 p (checksumFile e.2)
        (Ne.symm (h e (List.mem_cons_self e rest)))

/-- After a run over a consistent visit sequence, every visited path's
stored digest is the digest of its content. -/
theorem visitFold_visited (l : List (FPath × Checksum)) (vs : List (FPath × Bytes))
    (hcons : ∀ q c1 c2, (q, c1) ∈ vs → (q, c2) ∈ vs → c1 = c2)
    (q : FPath) (c : Bytes) (hm : (q, c) ∈ vs) :
    lookupA (visitFold l vs) q = some (checksumFile c) := by
  induction vs generalizing l with
  | nil => simp at hm
  | cons e rest ih =>
      rcases e with ⟨r, d⟩
      simp only [visitFold, List.foldl_cons]
      rw [show List.foldl (fun acc e => setA acc e.1 (checksumFile e.2))
          (setA l r (checksumFile d)) rest = visitFold (setA l r (checksumFile d)) rest from rfl]
      by_cases hq : ∃ c', (q, c') ∈ rest
      · rcases hq with ⟨c', hc'⟩
        have : c' = c := hcons q c' c (List.mem_cons_of_mem _ hc') hm
        subst this
        exact ih _ (fun a b1 b2 h1 h2 =>
          hcons a b1 b2 (List.mem_cons_of_mem _ h1) (List.mem_cons_of_mem _ h2)) hc'
      · push_neg at hq
        have hmem : (q, c) = (r, d) := by
          rcases List.mem_cons.mp hm with h | h
          · exact h
          · exact absurd h (hq c)
        have h1 : q = r := congrArg Prod.fst hmem
        have h2 : c = d := congrArg Prod.snd hmem
        rw [← h1, ← h2]
        rw [visitFold_not_visited _ _ _ (fun x hx hxq => hq x.2 (by rw [← hxq]; exact hx))]
        exact lookupA_setA_self l q (checksumFile c)

/-- Every event a visit run emits names a visited path. -/
theorem runVisits_event_paths (m : GoMap) (vs : List (FPath × Bytes))
    (evs : List Event) (m' : GoMap) (h : runVisits m vs = (.ok evs, m'))
    (e : Event) (he : e ∈ evs) : e.File ∈ vs.map Prod.fst := by
  induction vs generalizing m evs m' with
  | nil =>
      simp only [runVisits, Prod.mk.injEq] at h
      rcases h with ⟨h1, -⟩
      cases h1
      simp at he
  | cons x rest ih =>
      rcases x with ⟨q, c⟩
      simp only [runVisits] at h
      rcases m with _ | l
      · simp only [processFile, mapGet, mapSet] at h
        simp at h
      · simp only [processFile_some] at h
        rcases hrun : runVisits (some (setA l q (checksumFile c))) rest with ⟨r2, m2⟩
        rw [hrun] at h
        rcases r2 with e2 | evs2
        · simp at h
        · simp only [Prod.mk.injEq, Except.ok.injEq] at h
          rcases h with ⟨h1, -⟩
          cases h1
          rcases List.mem_append.mp he with hmem | hmem
          · simp only [List.map_cons]
            rw [classifyVisit_file l q c e hmem]
            exact List.mem_cons_self q _
          · exact List.mem_cons_of_mem _ (ih _ evs2 _ hrun hmem)

/-- A successful run over `vs1` composes with a run over `vs2`. -/
theorem runVisits_append (m : GoMap) (vs1 vs2 : List (FPath × Bytes))
    (evs1 : List Event) (m1 : GoMap) (h : runVisits m vs1 = (.ok evs1, m1)) :
    runVisits m (vs1 ++ vs2) =
      (match runVisits m1 vs2 with
       | (.error e, m2) => (.error e, m2)
       | (.ok evs2, m2) => (.ok (evs1 ++ evs2), m2)) := by
  induction vs1 generalizing m evs1 with
  | nil =>
      simp only [runVisits, Prod.mk.injEq] at h
      rcases h with ⟨h1, h2⟩
      cases h1
      cases h2
      simp only [List.nil_append]
      split <;> rename_i heq <;> rw [heq]
  | cons x rest ih =>
      rcases x with ⟨q, c⟩
      rcases m with _ | l
      · simp only [runVisits, processFile, mapGet, mapSet] at h
        simp at h
      · simp only [List.cons_append, runVisits, processFile_some, List.append_eq] at h ⊢
        rcases hrun : runVisits (some (setA l q (checksumFile c))) rest with ⟨r2, m2⟩
        rw [hrun] at h
        rcases r2 with e2 | evs2
        · simp at h
        · simp only [Prod.mk.injEq, Except.ok.injEq] at h
          rcases h with ⟨h1, h2⟩
          cases h1
          cases h2
          rw [ih _ evs2 hrun]
          rcases hr : runVisits m1 vs2 with ⟨r3, m3⟩
          rcases r3 with e3 | evs3 <;> simp [hr]

/-- A successful run leaves the stored digest of any unvisited path
untouched. -/
theorem runVisits_ok_map (m : GoMap) (vs : List (FPath × Bytes)) (evs : List Event)
    (m' : GoMap) (h : runVisits m vs = (.ok evs, m')) (p : FPath)
    (hp : p ∉ vs.map Prod.fst) : mapGet m' p = mapGet m p := by
  rcases m with _ | l
  · rcases vs with _ | ⟨⟨q, c⟩, rest⟩
    · simp only [runVisits, Prod.mk.injEq] at h
      rw [← h.2]
    · simp only [runVisits, processFile, mapGet, mapSet] at h
      simp at h
  · rcases runVisits_some l vs with ⟨evs0, h0⟩
    rw [h0] at h
    simp only [Prod.mk.injEq] at h
    rw [← h.2]
    simp only [mapGet]
    exact visitFold_not_visited l vs p fun e he hep =>
      hp (hep ▸ List.mem_map_of_mem Prod.fst he)

/-- A run in which every visited path already stores the digest of its
content emits nothing and leaves the map unchanged. -/
theorem runVisits_agree (m : GoMap) (vs : List (FPath × Bytes))
    (hag : ∀ q c, (q, c) ∈ vs → mapGet m q = some (checksumFile c)) :
    runVisits m vs = (.ok [], m) := by
  induction vs with
  | nil => rfl
  | cons x rest ih =>
      rcases x with ⟨q, c⟩
      have hhead := hag q c (List.mem_cons_self _ _)
      rcases m with _ | l
      · simp [mapGet] at hhead
      · simp only [mapGet] at hhead
        simp only [runVisits, processFile_some, classifyVisit, hhead,
          setA_of_lookupA l q (checksumFile c) hhead,
          ih fun a b hb => hag a b (List.mem_cons_of_mem _ hb)]
        simp

/-! ## Lemmas about the watch loop -/

theorem scanVisits_nil (fs : FS) : scanVisits fs [] = [] := rfl

theorem scanVisits_cons (fs : FS) (w : FPath) (rest : List FPath) :
    scanVisits fs (w :: rest) =
      (match statFS fs w with
       | none => []
       | some n => procVisits n w) ++ scanVisits fs rest := by
  simp [scanVisits]

/-- A successful watch loop is one visit run over all its visits. -/
theorem scanEntries_runVisits (fs : FS) (ws : List FPath) (m : GoMap)
    (evs : List Event) (m' : GoMap) (h : scanEntries fs m ws = (.ok evs, m')) :
    runVisits m (scanVisits fs ws) = (.ok evs, m') := by
  induction ws generalizing m evs with
  | nil =>
      simp only [scanEntries, Prod.mk.injEq] at h
      rcases h with ⟨h1, h2⟩
      cases h1; cases h2
      rfl
  | cons w rest ih =>
      simp only [scanEntries, processEntry] at h
      rcases hstat : statFS fs w with _ | n
      · simp only [hstat] at h; simp at h
      · simp only [hstat] at h
        rcases hrun : runVisits m (procVisits n w) with ⟨r1, m1⟩
        simp only [hrun] at h
        rcases r1 with e1 | evs1
        · simp at h
        · rcases hrest : scanEntries fs m1 rest with ⟨r2, m2⟩
          simp only [hrest] at h
          rcases r2 with e2 | evs2
          · simp at h
          · simp only [Prod.mk.injEq, Except.ok.injEq] at h
            rcases h with ⟨h1, h2⟩
            cases h1; cases h2
            rw [scanVisits_cons, hstat]
            rw [runVisits_append m _ _ evs1 m1 hrun, ih m1 evs2 hrest]

/-- A successful watch loop implies every watch path resolved. -/
theorem scanEntries_ok_stat (fs : FS) (ws : List FPath) (m : GoMap)
    (evs : List Event) (m' : GoMap) (h : scanEntries fs m ws = (.ok evs, m')) :
    ∀ w ∈ ws, (statFS fs w).isSome := by
  induction ws generalizing m evs m' with
  | nil => intro w hw; simp at hw
  | cons w0 rest ih =>
      intro w hw
      simp only [scanEntries, processEntry] at h
      rcases hstat : statFS fs w0 with _ | n
      · simp only [hstat] at h; simp at h
      · simp only [hstat] at h
        rcases hrun : runVisits m (procVisits n w0) with ⟨r1, m1⟩
        simp only [hrun] at h
        rcases r1 with e1 | evs1
        · simp at h
        · rcases hrest : scanEntries fs m1 rest with ⟨r2, m2⟩
          simp only [hrest] at h
          rcases r2 with e2 | evs2
          · simp at h
          · rcases List.mem_cons.mp hw with h1 | h1
            · rw [h1, hstat]; rfl
            · exact ih m1 evs2 m2 hrest w h1

/-- A watch loop whose entries all resolve and whose visited paths all
already store their content's digest emits nothing and changes nothing. -/
theorem scanEntries_agree (fs : FS) (ws : List FPath) (m : GoMap)
    (hstat : ∀ w ∈ ws, (statFS fs w).isSome)
    (hag : ∀ q c, (q, c) ∈ scanVisits fs ws → mapGet m q = some (checksumFile c)) :
    scanEntries fs m ws = (.ok [], m) := by
  induction ws with
  | nil => rfl
  | cons w rest ih =>
      rcases hn : statFS fs w with _ | n
      · have := hstat w (List.mem_cons_self _ _)
        rw [hn] at this
        simp at this
      · have hagw : ∀ q c, (q, c) ∈ procVisits n w → mapGet m q = some (checksumFile c) := by
          intro q c hm
          apply hag q c
          rw [scanVisits_cons, hn]
          exact List.mem_append_left _ hm
        have hrest : ∀ q c, (q, c) ∈ scanVisits fs rest →
            mapGet m q = some (checksumFile c) := by
          intro q c hm
          apply hag q c
          rw [scanVisits_cons, hn]
          exact List.mem_append_right _ hm
        simp only [scanEntries, processEntry, hn, runVisits_agree m _ hagw,
          ih (fun w2 hw2 => hstat w2 (List.mem_cons_of_mem _ hw2)) hrest]
        rfl

/-! ## Claims C1, C6, C7, C8, C9, C10 -/

theorem consistentB_spec (vs : List (FPath × Bytes)) (h : consistentB vs = true) :
    ∀ q c1 c2, (q, c1) ∈ vs → (q, c2) ∈ vs → c1 = c2 := by
  intro q c1 c2 h1 h2
  have h3 := (List.all_eq_true.mp ((List.all_eq_true.mp h) (q, c1) h1)) (q, c2) h2
  simpa using h3

/-- The shape of a successful `Scan`: the watch set is kept, exactly one
record with the scan's timestamp and events is appended at the end of the
history, and the map is the watch loop's output. -/
theorem scan_ok_shape (s : Sentinel) (fs : FS) (t : Nat) (evs : List Event) (s' : Sentinel)
    (h : Scan s fs t = (.ok evs, s')) :
    s'.WatchFiles = s.WatchFiles ∧
    s'.PriorScans = s.PriorScans ++ [{ Timestamp := t, Events := evs }] ∧
    scanEntries fs s.KnownObjects s.WatchFiles = (.ok evs, s'.KnownObjects) := by
  unfold Scan at h
  rcases hse : scanEntries fs s.KnownObjects s.WatchFiles with ⟨r, m1⟩
  simp only [hse] at h
  rcases r with e1 | evs1
  · simp at h
  · simp only [Prod.mk.injEq, Except.ok.injEq] at h
    rcases h with ⟨h1, h2⟩
    cases h1
    subst h2
    exact ⟨rfl, rfl, rfl⟩

/-- C1 (amended): whenever some visited file triggers a ReadError, `Scan`
returns the error, no ScanRecord is appended to the history and the watch
set is untouched; but the `KnownObjects` entries already written for the
files visited before the failure remain (the index update is not atomic) —
see the counterexample for the index change. -/
theorem scan_error_no_record (s : Sentinel) (fs : FS) (t : Nat) (e : GoErr)
    (h : (Scan s fs t).1 = .error e) :
    (Scan s fs t).2.PriorScans = s.PriorScans ∧
      (Scan s fs t).2.WatchFiles = s.WatchFiles := by
  rcases hse : scanEntries fs s.KnownObjects s.WatchFiles with ⟨r, m1⟩
  rcases r with e1 | evs
  · simp [Scan, hse]
  · simp only [Scan, hse] at h
    simp at h

/-- Witness for `scan_error_no_record`: a watch path that fails to stat
makes the scan return ReadError and append nothing. -/
theorem scan_error_no_record_witness :
    (Scan { WatchFiles := [["g"]], KnownObjects := some [], PriorScans := [] } [] 0).1 =
        .error .readErr ∧
      ((Scan { WatchFiles := [["g"]], KnownObjects := some [], PriorScans := [] } [] 0).2.PriorScans =
          [] ∧
        (Scan { WatchFiles := [["g"]], KnownObjects := some [], PriorScans := [] } [] 0).2.WatchFiles =
          [["g"]]) :=
  ⟨rfl, scan_error_no_record { WatchFiles := [["g"]], KnownObjects := some [], PriorScans := [] }
    [] 0 .readErr rfl⟩

/-- C1 counterexample: watching two files of which the second cannot be
read, `Scan` fails with the ReadError, yet the first file's entry has
already been added to `KnownObjects`: the state is not left unchanged. -/
theorem scan_error_index_changed :
    (Scan { WatchFiles := [["f1"], ["f2"]], KnownObjects := some [], PriorScans := [] }
        [(["f1"], .file [1])] 0).1 = .error .readErr ∧
      (Scan { WatchFiles := [["f1"], ["f2"]], KnownObjects := some [], PriorScans := [] }
        [(["f1"], .file [1])] 0).2.KnownObjects = some [(["f1"], checksumFile [1])] ∧
      some [(["f1"], checksumFile [1])] ≠ (some [] : GoMap) := by
  refine ⟨rfl, rfl, by simp⟩

/-- C6: the per-file body of `process`, on an allocated index: an absent
path yields exactly one Created event with empty prior digest and the
content hash as the new digest; a present path with a differing stored
digest yields exactly one Modified event carrying the stored digest and the
new one; a present path with the same digest yields no event; in all three
cases the index is set to the new digest. -/
theorem process_file_classification (l : List (FPath × Checksum)) (q : FPath) (c : Bytes) :
    (lookupA l q = none →
      processFile (some l) q c =
        .ok ([{ Evtype := evCreate, OrigChecksum := [], NewChecksum := checksumFile c,
                File := q }], some (setA l q (checksumFile c)))) ∧
    (∀ k, lookupA l q = some k → k ≠ checksumFile c →
      processFile (some l) q c =
        .ok ([{ Evtype := evModify, OrigChecksum := k, NewChecksum := checksumFile c,
                File := q }], some (setA l q (checksumFile c)))) ∧
    (∀ k, lookupA l q = some k → k = checksumFile c →
      processFile (some l) q c = .ok ([], some (setA l q (checksumFile c)))) := by
  refine ⟨?_, ?_, ?_⟩
  · intro hno
    rw [processFile_some]
    simp [classifyVisit, hno]
  · intro k hk hne
    rw [processFile_some]
    simp [classifyVisit, hk, hne]
  · intro k hk heq
    rw [processFile_some]
    simp [classifyVisit, hk, heq]

/-- Witness for `process_file_classification`: first sighting of a path
emits one Created event and installs the digest. -/
theorem process_file_classification_witness :
    lookupA [] ["f"] = none ∧
      processFile (some []) ["f"] [1] =
        .ok ([{ Evtype := evCreate, OrigChecksum := [], NewChecksum := checksumFile [1],
                File := ["f"] }], some (setA [] ["f"] (checksumFile [1]))) :=
  ⟨rfl, (process_file_classification [] ["f"] [1]).1 rfl⟩

/-- C7: if a scan succeeds and the watched world is unchanged, the next
scan over the same world yields zero events.  (`consistentB` states that
the visit sequence reads one coherent filesystem snapshot: a path never
carries two different contents.) -/
theorem scan_unchanged_no_events (s : Sentinel) (fs : FS) (t1 t2 : Nat)
    (evs : List Event) (s1 : Sentinel)
    (hcons : consistentB (scanVisits fs s.WatchFiles) = true)
    (h : Scan s fs t1 = (.ok evs, s1)) :
    (Scan s1 fs t2).1 = .ok [] := by
  obtain ⟨hw, -, hse⟩ := scan_ok_shape s fs t1 evs s1 h
  have hstat := scanEntries_ok_stat _ _ _ _ _ hse
  have hrv := scanEntries_runVisits _ _ _ _ _ hse
  have hag : ∀ q c, (q, c) ∈ scanVisits fs s.WatchFiles →
      mapGet s1.KnownObjects q = some (checksumFile c) := by
    rcases hm : s.KnownObjects with _ | l
    · rcases hvs : scanVisits fs s.WatchFiles with _ | ⟨⟨q0, c0⟩, rest⟩
      · intro q c hqc
        simp at hqc
      · rw [hm, hvs] at hrv
        simp only [runVisits, processFile, mapGet, mapSet] at hrv
        simp at hrv
    · rw [hm] at hrv
      rcases runVisits_some l (scanVisits fs s.WatchFiles) with ⟨evs0, h0⟩
      rw [h0] at hrv
      simp only [Prod.mk.injEq] at hrv
      intro q c hqc
      rw [← hrv.2]
      simp only [mapGet]
      exact visitFold_visited l _ (consistentB_spec _ hcons) q c hqc
  have hagree := scanEntries_agree fs s.WatchFiles s1.KnownObjects hstat hag
  simp only [Scan, hw, hagree]

/-- The one-file world, its fresh-scan event and the state after the first
scan, used by concrete witnesses. -/
def fsF : FS := [(["f"], FsNode.file [1])]

/-- The Created event the first scan of `fsF` emits. -/
def evF : Event := { Evtype := evCreate, OrigChecksum := [], NewChecksum := [3], File := ["f"] }

/-- The state after the first scan of `fsF` from a fresh sentinel. -/
def sF1 : Sentinel :=
  { WatchFiles := [["f"]], KnownObjects := some [(["f"], [3])],
    PriorScans := [{ Timestamp := 0, Events := [evF] }] }

/-- Witness for `scan_unchanged_no_events`: one watched file, scanned
twice without modification; the second scan reports no events. -/
theorem scan_unchanged_no_events_witness :
    (consistentB (scanVisits fsF (New { WatchFiles := [["f"]] }).WatchFiles) = true ∧
      Scan (New { WatchFiles := [["f"]] }) fsF 0 = (.ok [evF], sF1)) ∧
      (Scan sF1 fsF 1).1 = .ok [] :=
  ⟨⟨rfl, rfl⟩, scan_unchanged_no_events (New { WatchFiles := [["f"]] }) fsF 0 1 _ _ rfl rfl⟩

/-- C8: a run of k successful scans appends exactly k records, each at the
end of the history carrying its scan's timestamp, in the order the scans
happened; the records already present are never removed or reordered, and
when the clock readings are monotone the whole history is in chronological
order. -/
theorem scan_history_accumulation (s : Sentinel) (L : List (FS × Nat))
    (h : (runScans s L).1 = .ok ()) :
    ∃ extra : List ScanRecord,
      (runScans s L).2.PriorScans = s.PriorScans ++ extra ∧
      extra.length = L.length ∧
      extra.map ScanRecord.Timestamp = L.map Prod.snd ∧
      (List.Pairwise (· ≤ ·) ((s.PriorScans ++ extra).map ScanRecord.Timestamp) →
        List.Pairwise (· ≤ ·) ((runScans s L).2.PriorScans.map ScanRecord.Timestamp)) := by
  induction L generalizing s with
  | nil => exact ⟨[], by simp [runScans]⟩
  | cons x rest ih =>
      rcases x with ⟨fs, t⟩
      simp only [runScans] at h ⊢
      rcases hscan : Scan s fs t with ⟨r, s1⟩
      simp only [hscan] at h ⊢
      rcases r with e1 | evs1
      · simp at h
      · obtain ⟨-, hps, -⟩ := scan_ok_shape s fs t evs1 s1 hscan
        obtain ⟨extra, h1, h2, h3, -⟩ := ih s1 h
        refine ⟨{ Timestamp := t, Events := evs1 } :: extra, ?_, ?_, ?_, ?_⟩
        · rw [h1, hps, List.append_assoc]
          rfl
        · simp [h2]
        · simp [h3]
        · intro hp
          rw [h1, hps, List.append_assoc]
          simpa using hp

/-- Witness for `scan_history_accumulation`: two successful scans of one
unchanged file leave exactly two records, timestamps in order. -/
theorem scan_history_accumulation_witness :
    (runScans (New { WatchFiles := [["f"]] })
        [([(["f"], .file [1])], 0), ([(["f"], .file [1])], 1)]).1 = .ok () ∧
      ∃ extra : List ScanRecord,
        (runScans (New { WatchFiles := [["f"]] })
            [([(["f"], .file [1])], 0), ([(["f"], .file [1])], 1)]).2.PriorScans =
          (New { WatchFiles := [["f"]] }).PriorScans ++ extra ∧
        extra.length =
          ([([(["f"], FsNode.file [1])], 0), ([(["f"], FsNode.file [1])], 1)] :
            List (FS × Nat)).length ∧
        extra.map ScanRecord.Timestamp =
          ([([(["f"], FsNode.file [1])], 0), ([(["f"], FsNode.file [1])], 1)] :
            List (FS × Nat)).map Prod.snd ∧
        (List.Pairwise (· ≤ ·)
            (((New { WatchFiles := [["f"]] }).PriorScans ++ extra).map ScanRecord.Timestamp) →
          List.Pairwise (· ≤ ·)
            ((runScans (New { WatchFiles := [["f"]] })
                [([(["f"], .file [1])], 0), ([(["f"], .file [1])], 1)]).2.PriorScans.map
              ScanRecord.Timestamp)) :=
  ⟨rfl, scan_history_accumulation (New { WatchFiles := [["f"]] })
    [([(["f"], .file [1])], 0), ([(["f"], .file [1])], 1)] rfl⟩

/-- C9: a path that has an entry in the index (it was seen by an earlier
scan) but is visited by no file read of the current scan (it has been
deleted from the watched world) produces no event in a successful scan, and
its index entry survives unchanged. -/
theorem deleted_file_no_event (s : Sentinel) (fs : FS) (t : Nat)
    (l : List (FPath × Checksum)) (p : FPath) (v : Checksum)
    (evs : List Event) (s' : Sentinel)
    (hmap : s.KnownObjects = some l) (hv : lookupA l p = some v)
    (hgone : p ∉ (scanVisits fs s.WatchFiles).map Prod.fst)
    (hok : Scan s fs t = (.ok evs, s')) :
    mapGet s'.KnownObjects p = some v ∧ ∀ e ∈ evs, e.File ≠ p := by
  obtain ⟨-, -, hse⟩ := scan_ok_shape s fs t evs s' hok
  have hrv := scanEntries_runVisits _ _ _ _ _ hse
  constructor
  · rw [runVisits_ok_map _ _ _ _ hrv p hgone, hmap]
    exact hv
  · intro e he hep
    exact hgone (hep ▸ runVisits_event_paths _ _ _ _ hrv e he)

/-- A world with one watched file `d`, and a prior state that still
remembers a deleted file `g`, used by the C9 witness. -/
def fsD : FS := [(["d"], FsNode.file [1])]

/-- The prior state: `g` is in the index, only `d` is watched. -/
def sD0 : Sentinel :=
  { WatchFiles := [["d"]], KnownObjects := some [(["g"], [9])], PriorScans := [] }

/-- The Created event the scan of `fsD` emits for `d`. -/
def evD : Event := { Evtype := evCreate, OrigChecksum := [], NewChecksum := [3], File := ["d"] }

/-- The state after scanning `fsD` from `sD0`. -/
def sD1 : Sentinel :=
  { WatchFiles := [["d"]], KnownObjects := some [(["g"], [9]), (["d"], [3])],
    PriorScans := [{ Timestamp := 0, Events := [evD] }] }

/-- Witness for `deleted_file_no_event`: the index remembers `g` from an
earlier scan; the current world only has `d`; the scan succeeds, emits
nothing about `g` and keeps its entry. -/
theorem deleted_file_no_event_witness :
    (sD0.KnownObjects = some [(["g"], [9])] ∧
      lookupA [(["g"], [9])] ["g"] = some [9] ∧
      ["g"] ∉ (scanVisits fsD sD0.WatchFiles).map Prod.fst ∧
      Scan sD0 fsD 0 = (.ok [evD], sD1)) ∧
      (mapGet sD1.KnownObjects ["g"] = some [9] ∧ ∀ e ∈ [evD], e.File ≠ ["g"]) :=
  ⟨⟨rfl, rfl, by decide, rfl⟩,
    deleted_file_no_event sD0 fsD 0 [(["g"], [9])] ["g"] [9] _ _ rfl rfl (by decide) rfl⟩

set_option maxRecDepth 8000 in
/-- C10 (the code violates it): a state saved before its first scan has an
empty `KnownObjects` map; gob omits the zero-valued (empty) map, so `Open`
returns a state whose map is nil, and the next `Scan`'s write
`s.KnownObjects[filename] = checksum` is an assignment into a nil map — a
panic, not a completed scan. -/
theorem load_fresh_scan_panics :
    Open (Save (New { WatchFiles := [["f"]] }) "" (List.replicate 24 0) []) "" =
      .ok { WatchFiles := [["f"]], KnownObjects := none, PriorScans := [] } ∧
    (Scan { WatchFiles := [["f"]], KnownObjects := none, PriorScans := [] }
        [(["f"], FsNode.file [1])] 0).1 = .error .nilMapPanic :=
  ⟨rfl, rfl⟩

/-! ## List lemmas for the fresh-scan characterisation (C5) -/

theorem mem_of_mem_dedupKeys (xs : List (FPath × Bytes)) (e : FPath × Bytes)
    (h : e ∈ dedupKeys xs) : e ∈ xs := by
  induction xs using dedupKeys.induct with
  | case1 => simp [dedupKeys] at h
  | case2 q c rest ih =>
      rw [dedupKeys] at h
      rcases List.mem_cons.mp h with h1 | h1
      · rw [h1]; exact List.mem_cons_self _ _
      · exact List.mem_cons_of_mem _ (List.mem_of_mem_filter (ih h1))

theorem dedupKeys_filter_key (pb : FPath → Bool) (xs : List (FPath × Bytes)) :
    dedupKeys (xs.filter fun e => pb e.1) = (dedupKeys xs).filter fun e => pb e.1 := by
  induction xs using dedupKeys.induct with
  | case1 => simp [dedupKeys]
  | case2 q c rest ih =>
      rcases hq : pb q with _ | _
      · have hlhs : ((q, c) :: rest).filter (fun e => pb e.1) =
            rest.filter (fun e => pb e.1) := by
          simp [List.filter_cons, hq]
        have hrhs : (dedupKeys ((q, c) :: rest)).filter (fun e => pb e.1) =
            (dedupKeys (rest.filter fun e => !(e.1 == q))).filter (fun e => pb e.1) := by
          rw [dedupKeys]
          simp [List.filter_cons, hq]
        rw [hlhs, hrhs, ← ih, List.filter_filter]
        apply congrArg dedupKeys
        apply List.filter_congr
        intro e he
        rcases heq : e.1 == q with _ | _
        · simp [heq]
        · have he1 : e.1 = q := by simpa using heq
          simp [heq, he1, hq]
      · have hlhs : ((q, c) :: rest).filter (fun e => pb e.1) =
            (q, c) :: rest.filter (fun e => pb e.1) := by
          simp [List.filter_cons, hq]
        rw [hlhs, dedupKeys, dedupKeys, List.filter_filter, List.filter_cons]
        simp only [hq, if_true]
        congr 1
        rw [← ih, List.filter_filter]
        apply congrArg dedupKeys
        apply List.filter_congr
        intro e he
        exact Bool.and_comm _ _

theorem dedupKeys_append_disjoint (xs ys : List (FPath × Bytes))
    (hd : ∀ e1 ∈ xs, ∀ e2 ∈ ys, e1.1 ≠ e2.1) :
    dedupKeys (xs ++ ys) = dedupKeys xs ++ dedupKeys ys := by
  induction xs using dedupKeys.induct generalizing ys with
  | case1 => simp [dedupKeys]
  | case2 q c rest ih =>
      have hys : ys.filter (fun e => !(e.1 == q)) = ys := by
        apply List.filter_eq_self.mpr
        intro e he
        have := hd (q, c) (List.mem_cons_self _ _) e he
        simpa using fun h => this h.symm
      rw [List.cons_append, dedupKeys, dedupKeys, List.filter_append, hys,
        ih ys (fun e1 h1 e2 h2 => hd e1 (List.mem_cons_of_mem _ (List.mem_of_mem_filter h1)) e2 h2),
        List.cons_append]

theorem dedupKeys_absorb (xs ys zs : List (FPath × Bytes))
    (hsub : ∀ e ∈ ys, ∃ d, (e.1, d) ∈ xs) :
    dedupKeys (xs ++ (ys ++ zs)) = dedupKeys (xs ++ zs) := by
  induction xs using dedupKeys.induct generalizing ys zs with
  | case1 =>
      have : ys = [] := by
        rcases ys with _ | ⟨e, ys'⟩
        · rfl
        · rcases hsub e (List.mem_cons_self _ _) with ⟨d, hd⟩
          simp at hd
      rw [this]
      simp
  | case2 q c rest ih =>
      rw [List.cons_append, List.cons_append, dedupKeys, dedupKeys]
      congr 1
      simp only [List.filter_append]
      rw [ih]
      intro e he
      have he' := List.mem_of_mem_filter he
      have hne : e.1 ≠ q := by
        have := List.of_mem_filter he
        simpa using this
      rcases hsub e he' with ⟨d, hd⟩
      rcases List.mem_cons.mp hd with h1 | h1
      · exact absurd (congrArg Prod.fst h1) (by simpa using hne)
      · refine ⟨d, List.mem_filter.mpr ⟨h1, by simpa using hne⟩⟩

theorem filterMap_cons_toList (f : α → Option β) (x : α) (xs : List α) :
    List.filterMap f (x :: xs) = (f x).toList ++ List.filterMap f xs := by
  rcases hf : f x with _ | b <;> simp [List.filterMap_cons, hf]

theorem filterMap_filter_of (f g : α → Option β) (pb : α → Bool) (xs : List α)
    (h1 : ∀ e ∈ xs, pb e = true → f e = g e)
    (h2 : ∀ e ∈ xs, pb e = false → f e = none) :
    xs.filterMap f = (xs.filter pb).filterMap g := by
  induction xs with
  | nil => rfl
  | cons x rest ih =>
      have ihr := ih (fun e he hp => h1 e (List.mem_cons_of_mem _ he) hp)
        (fun e he hp => h2 e (List.mem_cons_of_mem _ he) hp)
      rcases hp : pb x with _ | _
      · rw [filterMap_cons_toList, h2 x (List.mem_cons_self _ _) hp]
        simp only [List.filter_cons, hp, Bool.false_eq_true, if_false, ihr, Option.toList_none,
          List.nil_append]
      · rw [filterMap_cons_toList, h1 x (List.mem_cons_self _ _) hp]
        simp only [List.filter_cons, hp, if_true, ihr]
        rw [filterMap_cons_toList]

theorem mem_keys_nodup_eq (xs : List (FPath × Bytes)) (hnd : (xs.map Prod.fst).Nodup)
    (q : FPath) (c1 c2 : Bytes) (h1 : (q, c1) ∈ xs) (h2 : (q, c2) ∈ xs) : c1 = c2 := by
  induction xs with
  | nil => simp at h1
  | cons x rest ih =>
      simp only [List.map_cons, List.nodup_cons] at hnd
      rcases List.mem_cons.mp h1 with ha | ha <;> rcases List.mem_cons.mp h2 with hb | hb
      · exact congrArg Prod.snd (ha.trans hb.symm)
      · exfalso
        apply hnd.1
        rw [← ha]
        simpa using List.mem_map_of_mem Prod.fst hb
      · exfalso
        apply hnd.1
        rw [← hb]
        simpa using List.mem_map_of_mem Prod.fst ha
      · exact ih hnd.2 ha hb

/-! ## Tree lemmas: visit paths, well-formedness, deduplication (C5) -/

theorem append_cons_inj {p : FPath} {a b : String} {t1 t2 : List String}
    (h : p ++ a :: t1 = p ++ b :: t2) : a = b ∧ t1 = t2 := by
  have h2 : a :: t1 = b :: t2 := List.append_cancel_left h
  simpa using h2

/-- Every visit path of a walk over children `l` at `p` extends `p` by a
component that names one of the children. -/
theorem procVisitsL_key (l : List (String × FsNode)) (p : FPath) :
    ∀ q x, (q, x) ∈ procVisitsL l p → ∃ b t, q = p ++ b :: t ∧ b ∈ l.map Prod.fst := by
  induction l, p using procVisitsL.induct with
  | case1 p =>
      intro q x h
      simp [procVisitsL] at h
  | case2 a c rest p ih =>
      intro q x h
      rw [procVisitsL] at h
      rcases List.mem_cons.mp h with h1 | h1
      · exact ⟨a, [], congrArg Prod.fst h1, by simp⟩
      · rcases ih q x h1 with ⟨b, t, hq, hb⟩
        exact ⟨b, t, hq, by simp only [List.map_cons]; exact List.mem_cons_of_mem _ hb⟩
  | case3 a ch rest p ih1 ih2 =>
      intro q x h
      rw [procVisitsL] at h
      rcases List.mem_append.mp h with h1 | h1
      · rcases List.mem_append.mp h1 with h2 | h2 <;>
        · rcases ih1 q x h2 with ⟨b, t, hq, -⟩
          refine ⟨a, b :: t, ?_, by simp⟩
          rw [hq, List.append_assoc]
          rfl
      · rcases ih2 q x h1 with ⟨b, t, hq, hb⟩
        exact ⟨b, t, hq, by simp only [List.map_cons]; exact List.mem_cons_of_mem _ hb⟩

/-- The same for the file-entry list. -/
theorem fileEntriesL_key (l : List (String × FsNode)) (p : FPath) :
    ∀ q x, (q, x) ∈ fileEntriesL l p → ∃ b t, q = p ++ b :: t ∧ b ∈ l.map Prod.fst := by
  induction l, p using fileEntriesL.induct with
  | case1 p =>
      intro q x h
      simp [fileEntriesL] at h
  | case2 a c rest p ih =>
      intro q x h
      rw [fileEntriesL] at h
      rcases List.mem_cons.mp h with h1 | h1
      · exact ⟨a, [], congrArg Prod.fst h1, by simp⟩
      · rcases ih q x h1 with ⟨b, t, hq, hb⟩
        exact ⟨b, t, hq, by simp only [List.map_cons]; exact List.mem_cons_of_mem _ hb⟩
  | case3 a ch rest p ih1 ih2 =>
      intro q x h
      rw [fileEntriesL] at h
      rcases List.mem_append.mp h with h1 | h1
      · rcases ih1 q x h1 with ⟨b, t, hq, -⟩
        refine ⟨a, b :: t, ?_, by simp⟩
        rw [hq, List.append_assoc]
        rfl
      · rcases ih2 q x h1 with ⟨b, t, hq, hb⟩
        exact ⟨b, t, hq, by simp only [List.map_cons]; exact List.mem_cons_of_mem _ hb⟩

/-- Every visit of the walk is a file entry of the tree. -/
theorem procVisitsL_mem_fileEntriesL (l : List (String × FsNode)) (p : FPath) :
    ∀ q x, (q, x) ∈ procVisitsL l p → (q, x) ∈ fileEntriesL l p := by
  induction l, p using procVisitsL.induct with
  | case1 p =>
      intro q x h
      simp [procVisitsL] at h
  | case2 a c rest p ih =>
      intro q x h
      rw [procVisitsL] at h
      rw [fileEntriesL]
      rcases List.mem_cons.mp h with h1 | h1
      · rw [h1]; exact List.mem_cons_self _ _
      · exact List.mem_cons_of_mem _ (ih q x h1)
  | case3 a ch rest p ih1 ih2 =>
      intro q x h
      rw [procVisitsL] at h
      rw [fileEntriesL]
      rcases List.mem_append.mp h with h1 | h1
      · rcases List.mem_append.mp h1 with h2 | h2 <;>
          exact List.mem_append_left _ (ih1 q x h2)
      · exact List.mem_append_right _ (ih2 q x h1)

theorem wfList_file_cons {a : String} {c : Bytes} {rest : List (String × FsNode)}
    (h : wfList ((a, .file c) :: rest) = true) :
    ((rest.map Prod.fst).contains a = false) ∧ wfList rest = true := by
  rw [wfList] at h
  simp only [Bool.and_eq_true] at h
  exact ⟨by simpa using h.1, h.2⟩

theorem wfList_dir_cons {a : String} {ch rest : List (String × FsNode)}
    (h : wfList ((a, .dir ch) :: rest) = true) :
    wfList ch = true ∧ ((rest.map Prod.fst).contains a = false) ∧ wfList rest = true := by
  rw [wfList] at h
  simp only [Bool.and_eq_true] at h
  exact ⟨h.1.1, by simpa using h.1.2, h.2⟩

theorem not_mem_of_contains_false {a : String} {l : List String}
    (h : l.contains a = false) : a ∉ l := by
  simpa using h

/-- With distinct sibling names, the one-per-file entry list has distinct
paths. -/
theorem fileEntriesL_nodup (l : List (String × FsNode)) (p : FPath)
    (hwf : wfList l = true) : ((fileEntriesL l p).map Prod.fst).Nodup := by
  induction l, p using fileEntriesL.induct with
  | case1 p => simp [fileEntriesL]
  | case2 a c rest p ih =>
      rcases wfList_file_cons hwf with ⟨hc, hwr⟩
      rw [fileEntriesL]
      simp only [List.map_cons, List.nodup_cons]
      refine ⟨?_, ih hwr⟩
      intro hm
      rcases List.mem_map.mp hm with ⟨⟨q, x⟩, hqx, hq⟩
      rcases fileEntriesL_key rest p q x hqx with ⟨b, t, hqe, hb⟩
      have hq2 : p ++ [a] = p ++ b :: t := by
        rw [← hqe]
        exact hq.symm
      have hab : a = b ∧ ([] : List String) = t := append_cons_inj hq2
      exact not_mem_of_contains_false hc (hab.1 ▸ hb)
  | case3 a ch rest p ih1 ih2 =>
      rcases wfList_dir_cons hwf with ⟨hch, hc, hwr⟩
      rw [fileEntriesL]
      rw [List.map_append, List.nodup_append]
      refine ⟨ih1 hch, ih2 hwr, ?_⟩
      intro q hq1 hq2
      rcases List.mem_map.mp hq1 with ⟨⟨q1, x1⟩, hqx1, he1⟩
      rcases List.mem_map.mp hq2 with ⟨⟨q2, x2⟩, hqx2, he2⟩
      rcases fileEntriesL_key ch (p ++ [a]) q1 x1 hqx1 with ⟨b1, t1, hqe1, -⟩
      rcases fileEntriesL_key rest p q2 x2 hqx2 with ⟨b2, t2, hqe2, hb2⟩
      have he1' : q1 = q := he1
      have he2' : q2 = q := he2
      have hassoc : p ++ a :: (b1 :: t1) = (p ++ [a]) ++ (b1 :: t1) :=
        (List.append_assoc p [a] (b1 :: t1)).symm
      have hq12 : p ++ a :: (b1 :: t1) = p ++ b2 :: t2 := by
        rw [hassoc, ← hqe1, he1', ← he2', hqe2]
      have hab : a = b2 ∧ (b1 :: t1) = t2 := append_cons_inj hq12
      exact not_mem_of_contains_false hc (hab.1 ▸ hb2)

/-- Deduplicating the walk's visit sequence yields exactly the one-per-file
entry list: the extra visits caused by `process` re-walking every
subdirectory are all repeats. -/
theorem dedupKeys_procVisitsL (l : List (String × FsNode)) (p : FPath)
    (hwf : wfList l = true) : dedupKeys (procVisitsL l p) = fileEntriesL l p := by
  induction l, p using procVisitsL.induct with
  | case1 p => simp [procVisitsL, fileEntriesL, dedupKeys]
  | case2 a c rest p ih =>
      rcases wfList_file_cons hwf with ⟨hc, hwr⟩
      rw [procVisitsL, fileEntriesL, dedupKeys]
      congr 1
      rw [List.filter_eq_self.mpr, ih hwr]
      intro e he
      rcases procVisitsL_key rest p e.1 e.2 he with ⟨b, t, hqe, hb⟩
      have hne : e.1 ≠ p ++ [a] := by
        rw [hqe]
        intro hq
        have hab : b = a ∧ t = ([] : List String) := append_cons_inj hq
        exact not_mem_of_contains_false hc (hab.1 ▸ hb)
      simpa using hne
  | case3 a ch rest p ih1 ih2 =>
      rcases wfList_dir_cons hwf with ⟨hch, hc, hwr⟩
      rw [procVisitsL, fileEntriesL, List.append_assoc]
      rw [dedupKeys_absorb _ _ _ (fun e he => ⟨e.2, he⟩)]
      rw [dedupKeys_append_disjoint]
      · rw [ih1 hch, ih2 hwr]
      · intro e1 h1 e2 h2
        rcases procVisitsL_key ch (p ++ [a]) e1.1 e1.2 h1 with ⟨b1, t1, hqe1, -⟩
        rcases procVisitsL_key rest p e2.1 e2.2 h2 with ⟨b2, t2, hqe2, hb2⟩
        intro hq
        have hassoc : p ++ a :: (b1 :: t1) = (p ++ [a]) ++ (b1 :: t1) :=
          (List.append_assoc p [a] (b1 :: t1)).symm
        have hq12 : p ++ a :: (b1 :: t1) = p ++ b2 :: t2 := by
          rw [hassoc, ← hqe1, hq, hqe2]
        have hab : a = b2 ∧ (b1 :: t1) = t2 := append_cons_inj hq12
        exact not_mem_of_contains_false hc (hab.1 ▸ hb2)

/-- Node-level form of `dedupKeys_procVisitsL`. -/
theorem dedupKeys_procVisits (n : FsNode) (p : FPath) (hwf : wfNode n = true) :
    dedupKeys (procVisits n p) = fileEntries n p := by
  match n with
  | .file c => simp [procVisits, fileEntries, dedupKeys]
  | .dir ch => exact dedupKeys_procVisitsL ch p hwf

/-- Node-level form of `fileEntriesL_nodup`. -/
theorem fileEntries_nodup (n : FsNode) (p : FPath) (hwf : wfNode n = true) :
    ((fileEntries n p).map Prod.fst).Nodup := by
  match n with
  | .file c => simp [fileEntries]
  | .dir ch => exact fileEntriesL_nodup ch p hwf

/-- In a well-formed tree a visit path determines its content. -/
theorem procVisits_consistent (n : FsNode) (p : FPath) (hwf : wfNode n = true) :
    ∀ q c1 c2, (q, c1) ∈ procVisits n p → (q, c2) ∈ procVisits n p → c1 = c2 := by
  match n with
  | .file c =>
      intro q c1 c2 h1 h2
      simp only [procVisits, List.mem_singleton] at h1 h2
      have hc1 : c1 = c := congrArg Prod.snd h1
      have hc2 : c2 = c := congrArg Prod.snd h2
      rw [hc1, hc2]
  | .dir ch =>
      intro q c1 c2 h1 h2
      exact mem_keys_nodup_eq (fileEntriesL ch p) (fileEntriesL_nodup ch p hwf) q c1 c2
        (procVisitsL_mem_fileEntriesL ch p q c1 h1)
        (procVisitsL_mem_fileEntriesL ch p q c2 h2)

/-! ## The fresh-scan characterisation and claim C5 -/

/-- One visit's classification as an optional event (the `Option` form of
`classifyVisit`, convenient for `filterMap`). -/
def classifyO (l : List (FPath × Checksum)) (e : FPath × Bytes) : Option Event :=
  match lookupA l e.1 with
  | none =>
      some { Evtype := evCreate, OrigChecksum := [], NewChecksum := checksumFile e.2,
             File := e.1 }
  | some k =>
      if k = checksumFile e.2 then none
      else
        some { Evtype := evModify, OrigChecksum := k, NewChecksum := checksumFile e.2,
               File := e.1 }

theorem classifyVisit_toList (l : List (FPath × Checksum)) (q : FPath) (c : Bytes) :
    classifyVisit l q c = (classifyO l (q, c)).toList := by
  rcases hlk : lookupA l q with _ | k
  · simp [classifyVisit, classifyO, hlk]
  · by_cases hk : k = checksumFile c <;> simp [classifyVisit, classifyO, hlk, hk]

theorem classifyO_setA_ne (l : List (FPath × Checksum)) (q : FPath) (v : Checksum)
    (e : FPath × Bytes) (hne : e.1 ≠ q) : classifyO (setA l q v) e = classifyO l e := by
  simp [classifyO, lookupA_setA_ne l q e.1 v hne]

/-- A run over a consistent visit sequence from an allocated map: the
events are the classification of the first visit of each path against the
starting map (repeat visits are silent), and the final map is the fold. -/
theorem runVisits_characterize (l : List (FPath × Checksum)) (vs : List (FPath × Bytes))
    (hcons : ∀ q c1 c2, (q, c1) ∈ vs → (q, c2) ∈ vs → c1 = c2) :
    runVisits (some l) vs =
      (.ok ((dedupKeys vs).filterMap (classifyO l)), some (visitFold l vs)) := by
  induction vs generalizing l with
  | nil => simp [runVisits, dedupKeys, visitFold]
  | cons x rest ih =>
      rcases x with ⟨q, c⟩
      have hconsr : ∀ a b1 b2, (a, b1) ∈ rest → (a, b2) ∈ rest → b1 = b2 :=
        fun a b1 b2 ha hb =>
          hcons a b1 b2 (List.mem_cons_of_mem _ ha) (List.mem_cons_of_mem _ hb)
      simp only [runVisits, processFile_some, ih (setA l q (checksumFile c)) hconsr]
      have hfold : visitFold (setA l q (checksumFile c)) rest = visitFold l ((q, c) :: rest) := by
        simp [visitFold]
      rw [hfold]
      have htail : (dedupKeys rest).filterMap (classifyO (setA l q (checksumFile c))) =
          (dedupKeys (rest.filter fun e => !(e.1 == q))).filterMap (classifyO l) := by
        rw [dedupKeys_filter_key (fun k => !(k == q)) rest]
        apply filterMap_filter_of
        · intro e he hp
          apply classifyO_setA_ne
          simpa using hp
        · intro e he hp
          have heq : e.1 = q := by simpa using hp
          have hememb : (q, e.2) ∈ rest := by
            have := mem_of_mem_dedupKeys rest e he
            rw [← heq]
            exact this
          have hce : e.2 = c :=
            hcons q e.2 c (List.mem_cons_of_mem _ hememb) (List.mem_cons_self _ _)
          simp [classifyO, heq, lookupA_setA_self, hce]
      rw [dedupKeys, filterMap_cons_toList, ← classifyVisit_toList, htail]

/-- The Created event reported for a freshly seen file entry. -/
def createdEvent (e : FPath × Bytes) : Event :=
  { Evtype := evCreate, OrigChecksum := [], NewChecksum := checksumFile e.2, File := e.1 }

/-- Against an empty index every visit classifies as a Created event. -/
theorem filterMap_classifyO_nil (xs : List (FPath × Bytes)) :
    xs.filterMap (classifyO []) = xs.map createdEvent := by
  induction xs with
  | nil => rfl
  | cons x rest ih =>
      rw [filterMap_cons_toList, ih]
      simp [classifyO, lookupA, createdEvent]

/-- C5: scanning a watched directory tree from a fresh state yields exactly
one Created event per regular file in the tree (nested subdirectories
included), in walk order, each carrying the file's content hash, with
distinct file paths; directories themselves produce no event (only file
entries appear). -/
theorem scan_fresh_dir_created (n : FsNode) (w : FPath) (t : Nat)
    (hwf : wfNode n = true) :
    (∃ s', Scan (New { WatchFiles := [w] }) [(w, n)] t =
        (.ok ((fileEntries n w).map createdEvent), s')) ∧
      ((fileEntries n w).map Prod.fst).Nodup := by
  have hcons := procVisits_consistent n w hwf
  have hrv := runVisits_characterize [] (procVisits n w) hcons
  rw [dedupKeys_procVisits n w hwf, filterMap_classifyO_nil] at hrv
  refine ⟨⟨{ WatchFiles := [w],
             KnownObjects := some (visitFold [] (procVisits n w)),
             PriorScans := [{ Timestamp := t,
                              Events := (fileEntries n w).map createdEvent }] }, ?_⟩,
    fileEntries_nodup n w hwf⟩
  have hstat : statFS [(w, n)] w = some n := by simp [statFS]
  simp only [Scan, scanEntries, processEntry, New, hstat, hrv, List.append_nil,
    List.nil_append]

/-- The directory tree of the repository's own directory-watch test: two
files beside a subdirectory holding two more. -/
def testTree : FsNode :=
  .dir [("file1", .file [0]), ("file2", .file [1]),
    ("testsubdir", .dir [("file3", .file [2]), ("file4", .file [4])])]

/-- Witness for `scan_fresh_dir_created` on `testTree` (4 regular files). -/
theorem scan_fresh_dir_created_witness :
    wfNode testTree = true ∧
      ((∃ s', Scan (New { WatchFiles := [["d"]] }) [(["d"], testTree)] 0 =
          (.ok ((fileEntries testTree ["d"]).map createdEvent), s')) ∧
        ((fileEntries testTree ["d"]).map Prod.fst).Nodup) :=
  ⟨by simp [testTree, wfNode, wfList],
    scan_fresh_dir_created testTree ["d"] 0 (by simp [testTree, wfNode, wfList])⟩

end Spid
